import Mathlib

/- Formal model of the vim-matlab-simple server (plugin/matlab_server.py).
   Strings are modelled as lists of characters, the random generator and the
   filesystem as oracle functions, and the process lifecycle as explicit
   state passing. -/

/-- The single-quote character (avoids literal quotes inside string data). -/
def sqCh : Char := Char.ofNat 39

/-- The double-quote character. -/
def dqCh : Char := Char.ofNat 34

/-- The characters removed by the Python str.strip method with no
arguments: space, tab, newline, carriage return, vertical tab, form feed. -/
def pyIsSpace (c : Char) : Bool :=
  c == ' ' || c == '\t' || c == '\n' || c == '\r' ||
    c == Char.ofNat 11 || c == Char.ofNat 12

/-- Remove leading characters satisfying p (Python lstrip). -/
def lstripBy (p : Char → Bool) (s : List Char) : List Char := s.dropWhile p

/-- Remove trailing characters satisfying p (Python rstrip). -/
def rstripBy (p : Char → Bool) (s : List Char) : List Char :=
  (s.reverse.dropWhile p).reverse

/-- Python str.strip with no arguments. -/
def pyStrip (s : List Char) : List Char := rstripBy pyIsSpace (lstripBy pyIsSpace s)

/-- Membership in the two-character strip set used by run_file: the
single-quote and double-quote characters. -/
def isQuoteChar (c : Char) : Bool := c == sqCh || c == dqCh

/-- The quote stripping performed by run_file on the received path. -/
def stripQuotes (s : List Char) : List Char :=
  rstripBy isQuoteChar (lstripBy isQuoteChar s)

/-- The continuation delimiter inserted between chunks of an over-length
command: space, three dots, newline. -/
def delim : List Char := " ...".data ++ ['\n']

/-- The chunk size: 4095 minus the length of the delimiter. -/
def line_size : Nat := 4095 - delim.length

/-- Whether a command already ends with a newline. -/
def endsWithNL (s : List Char) : Bool := s.getLast? == some '\n'

/-- The slices s[i : i+n] for i in range(0, len(s), n), exactly as the
chunking loop of prepare_command builds them. -/
def chunksOf (n : Nat) (s : List Char) : List (List Char) :=
  if h : s = [] then []
  else if h2 : n = 0 then []
  else s.take n :: chunksOf n (s.drop n)
termination_by s.length
decreasing_by
  simp only [List.length_drop]
  have h3 : 0 < s.length := List.length_pos.mpr h
  omega

/-- The joining of a list of chunks with a separator, as the Python join method does. -/
def joinDelim (sep : List Char) : List (List Char) → List Char
  | [] => []
  | [x] => x
  | x :: y :: rest => x ++ sep ++ joinDelim sep (y :: rest)

/-- The timing harness built around stripped code when run_timer is set:
rand_var=tic; code ,try,toc(rand_var),catch,end,clear(quoted rand_var);
followed by a newline. -/
def timerWrap (rand_var code : List Char) : List Char :=
  rand_var ++ "=tic;".data ++ pyStrip code ++ ",try,toc(".data ++ rand_var ++
    "),catch,end,clear(".data ++ [sqCh] ++ rand_var ++ [sqCh] ++ ");".data ++ ['\n']

/-- The tail of prepare_command: split commands longer than line_size into
chunks rejoined with the delimiter, then append a newline if the result
does not already end with one. -/
def chunkStep (command : List Char) : List Char :=
  let c2 := if line_size < command.length then joinDelim delim (chunksOf line_size command)
            else command
  if endsWithNL c2 then c2 else c2 ++ ['\n']

/-- Matlab._prepare_command of plugin/matlab_server.py. Empty or blank code
yields a bare newline; otherwise the code is stripped, optionally wrapped in
the timing harness, and chunked. The random identifier is passed in as
rand_var. -/
def prepare_command (code : List Char) (run_timer : Bool) (rand_var : List Char) :
    List Char :=
  if pyStrip code = [] then ['\n']
  else chunkStep (if run_timer then timerWrap rand_var code else pyStrip code ++ ['\n'])

/-- The alphabet string.ascii_uppercase from which the timer identifier is
drawn. -/
def ascii_uppercase : List Char := "ABCDEFGHIJKLMNOPQRSTUVWXYZ".data

/-- The random identifier: twelve draws of random.choice over the uppercase
alphabet, with the random generator modelled as the oracle pick. -/
def gen_rand_var (pick : Nat → Nat) : List Char :=
  (List.range 12).map fun i =>
    ascii_uppercase.getD (pick i % ascii_uppercase.length) 'A'

/-- The externally visible result of one server operation: a command placed
on the command queue, nothing (a logged warning only), an error printed to
local diagnostic output, or a direct control action on the process. -/
inductive Effect
  | enq (cmd : List Char)
  | noop
  | localError
  | killed
  | interrupted
deriving DecidableEq, Repr

/-- Matlab.run_code: prepare the command and put it on the command queue. -/
def run_code_effect (code : List Char) (run_timer : Bool) (rand_var : List Char) :
    Effect :=
  .enq (prepare_command code run_timer rand_var)

/-- The cell-marker cleanup inside run_cell: when the stripped cell starts
with two percent signs, the marker is removed from the first line, dropping
that line entirely when nothing else is on it. -/
def stripCellMarker (cell_code : List Char) : List Char :=
  if ("%%".data).isPrefixOf (pyStrip cell_code) then
    let lines := cell_code.splitOn '\n'
    let lines2 :=
      match lines with
      | [] => lines
      | first :: rest =>
        let first_line := pyStrip first
        if ("%%".data).isPrefixOf first_line then
          let clean_first := lstripBy pyIsSpace (first_line.drop 2)
          if clean_first ≠ [] then clean_first :: rest else rest
        else first :: rest
    joinDelim ['\n'] lines2
  else cell_code

/-- Matlab.run_cell: empty or blank cells produce nothing; otherwise the
cell marker is removed and the code runs with the timer disabled. -/
def run_cell (rand_var cell_code : List Char) : Effect :=
  if pyStrip cell_code = [] then .noop
  else run_code_effect (stripCellMarker cell_code) false rand_var

/-- The code string run(quoted path); built by run_file. -/
def mkRunCommand (fp : List Char) : List Char :=
  "run(".data ++ [sqCh] ++ fp ++ [sqCh] ++ ");".data

/-- Matlab.run_file: strip surrounding quotes, check existence against the
filesystem oracle fs, report locally when the file is missing, otherwise
run the file with the timer disabled. -/
def run_file (fs : List Char → Bool) (rand_var filepath : List Char) : Effect :=
  let fp := stripQuotes filepath
  if fs fp = false then .localError
  else run_code_effect (mkRunCommand fp) false rand_var

/-- TCPHandler._process_message: dispatch one received line. -/
def process_message (fs : List Char → Bool) (rand_var msg : List Char) : Effect :=
  if ("run_file:".data).isPrefixOf msg then run_file fs rand_var (msg.drop 9)
  else if ("run_cell:".data).isPrefixOf msg then run_cell rand_var (msg.drop 9)
  else if msg = "kill".data then .killed
  else if msg = "cancel".data then .interrupted
  else run_code_effect msg true rand_var

/-- Membership test for a newline in an output chunk. -/
def containsNL (s : List Char) : Bool := s.any (· == '\n')

/-- Python str.find for the first newline; only used on chunks that
contain one. -/
def findNL (s : List Char) : Nat := s.findIdx (· == '\n')

/-- output_filter of plugin/matlab_server.py, returning the updated
hide_until_newline flag together with the displayed text. -/
def output_filter (hide : Bool) (output_string : List Char) : Bool × List Char :=
  if hide then
    if containsNL output_string then
      (false, output_string.drop (findNL output_string))
    else (hide, [])
  else (hide, output_string)

/-- The suffix of a string starting at its first newline, empty when the
string has none. -/
def suffixFromNL : List Char → List Char
  | [] => []
  | c :: rest => if c = '\n' then c :: rest else suffixFromNL rest

/-- Feeding a sequence of output chunks through the filter, threading the
flag and concatenating the displayed parts. -/
def filterRun (hide : Bool) : List (List Char) → List Char
  | [] => []
  | s :: rest =>
    let p := output_filter hide s
    p.2 ++ filterRun p.1 rest

/-- Events observable during one Matlab._execute_command call: a write
attempt on the child process, a relaunch of the child, and the final
successful delivery marker. -/
inductive SendEv
  | attempt
  | relaunch
  | sent
deriving DecidableEq, BEq, Repr

/-- Whether the command reached the child or was dropped after the retries
were exhausted; in both cases the call returns normally. -/
inductive SendOutcome
  | delivered
  | dropped
deriving DecidableEq, BEq, Repr

/-- The retry loop of Matlab._execute_command, starting at the given value
of num_retry; fails i tells whether the i-th write raises. A failed write
relaunches the process only when another attempt is still to come. -/
def execFrom (fails : Nat → Bool) (num_retry : Nat) : List SendEv × SendOutcome :=
  if h : num_retry < 3 then
    if fails num_retry then
      let rest := execFrom fails (num_retry + 1)
      (SendEv.attempt ::
        ((if num_retry < 2 then [SendEv.relaunch] else []) ++ rest.1), rest.2)
    else ([SendEv.attempt, SendEv.sent], .delivered)
  else ([], .dropped)
termination_by 3 - num_retry
decreasing_by omega

/-- Matlab._execute_command: run the retry loop from num_retry zero. -/
def execute_command (fails : Nat → Bool) : List SendEv × SendOutcome :=
  execFrom fails 0

/-- The process-lifecycle state of one session: the process-group leaders
of the child processes currently alive, and the handle stored in self.proc
(kept even after the child dies, exactly as the Python attribute is). -/
structure SessState where
  alive : List Nat
  current : Option Nat
deriving DecidableEq, Repr

/-- Before the first launch there is no child and no stored handle. -/
def initState : SessState := ⟨[], none⟩

/-- Matlab.kill: send SIGTERM to the process group of the stored handle;
when no process of that group is alive the error is swallowed and nothing
changes. The stored handle itself is not cleared. -/
def killStep (s : SessState) : SessState :=
  match s.current with
  | some p => ⟨s.alive.filter (fun q => q != p), s.current⟩
  | none => s

/-- Spawning the child inside launch_process: the fresh process becomes
alive and its handle is stored in self.proc. -/
def spawnStep (pid : Nat) (s : SessState) : SessState :=
  ⟨pid :: s.alive, some pid⟩

/-- Matlab.launch_process: kill the existing child first, then spawn the
replacement. -/
def launch_process (pid : Nat) (s : SessState) : SessState :=
  spawnStep pid (killStep s)

/-- The lifecycle operations a session can undergo: a (re)launch with a
fresh pid, or an explicit kill. -/
inductive SessOp
  | launch (pid : Nat)
  | kill
deriving DecidableEq, Repr

def stepOp (s : SessState) : SessOp → SessState
  | .launch pid => launch_process pid s
  | .kill => killStep s

def runOps (s : SessState) (ops : List SessOp) : SessState := ops.foldl stepOp s

/-- The session invariant: at most one child alive, and any alive child is
the one stored in self.proc. -/
def sessInv (s : SessState) : Prop :=
  s.alive.length ≤ 1 ∧ ∀ p ∈ s.alive, s.current = some p

theorem pyStrip_nil_of_space (c : List Char) (h : ∀ ch ∈ c, pyIsSpace ch = true) :
    pyStrip c = [] := by
  have h1 : lstripBy pyIsSpace c = [] := by
    simp only [lstripBy, List.dropWhile_eq_nil_iff]
    exact h
  simp [pyStrip, h1, rstripBy]

theorem prepare_command_blank (c rv : List Char) (t : Bool) (h : pyStrip c = []) :
    prepare_command c t rv = ['\n'] := by
  simp [prepare_command, h]

/-- Claim C8: for every input code string that is empty or consists only of
whitespace, the command encoder returns exactly the single-character string
made of one newline, for both values of the timer flag. -/
theorem C8_blank_input (c rv : List Char) (t : Bool)
    (h : ∀ ch ∈ c, pyIsSpace ch = true) :
    prepare_command c t rv = ['\n'] :=
  prepare_command_blank c rv t (pyStrip_nil_of_space c h)

/-- Concrete instance of C8_blank_input on a two-character blank input. -/
theorem C8_blank_input_witness :
    (∀ ch ∈ [' ', '\t'], pyIsSpace ch = true) ∧
      prepare_command [' ', '\t'] true [] = ['\n'] :=
  ⟨by decide, C8_blank_input [' ', '\t'] [] true (by decide)⟩

theorem chunksOf_nil_eq (n : Nat) : chunksOf n [] = [] := by
  rw [chunksOf]
  simp

theorem chunksOf_cons_eq (n : Nat) (s : List Char) (hs : s ≠ []) (hn : n ≠ 0) :
    chunksOf n s = s.take n :: chunksOf n (s.drop n) := by
  rw [chunksOf]
  simp [hs, hn]

theorem chunksOf_join_aux (n : Nat) (hn : n ≠ 0) :
    ∀ (k : Nat) (s : List Char), s.length ≤ k → (chunksOf n s).flatten = s := by
  intro k
  induction k with
  | zero =>
    intro s hs
    have h0 : s = [] := List.eq_nil_of_length_eq_zero (Nat.le_zero.mp hs)
    subst h0
    simp [chunksOf_nil_eq]
  | succ k ih =>
    intro s hs
    by_cases h : s = []
    · subst h
      simp [chunksOf_nil_eq]
    · rw [chunksOf_cons_eq n s h hn]
      have hlen : (s.drop n).length ≤ k := by
        have h1 : 0 < s.length := List.length_pos.mpr h
        have h2 : 0 < n := Nat.pos_of_ne_zero hn
        simp only [List.length_drop]
        omega
      simp only [List.flatten_cons, ih (s.drop n) hlen]
      exact List.take_append_drop n s

theorem chunksOf_join (n : Nat) (hn : n ≠ 0) (s : List Char) :
    (chunksOf n s).flatten = s :=
  chunksOf_join_aux n hn s.length s le_rfl

theorem chunksOf_length_le_aux (n : Nat) :
    ∀ (k : Nat) (s : List Char), s.length ≤ k →
      ∀ ch ∈ chunksOf n s, ch.length ≤ n := by
  intro k
  induction k with
  | zero =>
    intro s hs
    have h0 : s = [] := List.eq_nil_of_length_eq_zero (Nat.le_zero.mp hs)
    subst h0
    simp [chunksOf_nil_eq]
  | succ k ih =>
    intro s hs
    by_cases h : s = []
    · subst h
      simp [chunksOf_nil_eq]
    · by_cases hn : n = 0
      · subst hn
        rw [chunksOf]
        simp [h]
      · rw [chunksOf_cons_eq n s h hn]
        intro ch hch
        rcases List.mem_cons.mp hch with h1 | h1
        · subst h1
          simp [List.length_take]
        · have hlen : (s.drop n).length ≤ k := by
            have h1 : 0 < s.length := List.length_pos.mpr h
            have h2 : 0 < n := Nat.pos_of_ne_zero hn
            simp only [List.length_drop]
            omega
          exact ih (s.drop n) hlen ch h1

theorem chunksOf_length_le (n : Nat) (s : List Char) :
    ∀ ch ∈ chunksOf n s, ch.length ≤ n :=
  chunksOf_length_le_aux n s.length s le_rfl

theorem joinDelim_chunksOf_getLast_aux (sep : List Char) (n : Nat) (hn : n ≠ 0) :
    ∀ (k : Nat) (s : List Char), s.length ≤ k → s ≠ [] →
      (joinDelim sep (chunksOf n s)).getLast? = s.getLast? := by
  intro k
  induction k with
  | zero =>
    intro s hs h
    exact absurd (List.eq_nil_of_length_eq_zero (Nat.le_zero.mp hs)) h
  | succ k ih =>
    intro s hs h
    by_cases hdrop : s.drop n = []
    · have hle : s.length ≤ n := by
        have := List.length_drop n s
        rw [hdrop] at this
        simp at this
        omega
      rw [chunksOf_cons_eq n s h hn, hdrop, chunksOf_nil_eq,
        List.take_of_length_le hle]
      rfl
    · have hlen : (s.drop n).length ≤ k := by
        have h1 : 0 < s.length := List.length_pos.mpr h
        have h2 : 0 < n := Nat.pos_of_ne_zero hn
        simp only [List.length_drop]
        omega
      have hIH := ih (s.drop n) hlen hdrop
      have hne : joinDelim sep (chunksOf n (s.drop n)) ≠ [] := by
        intro hcontr
        rw [hcontr] at hIH
        have hsome : (s.drop n).getLast?.isSome := List.getLast?_isSome.mpr hdrop
        rw [← hIH] at hsome
        simp at hsome
      obtain ⟨b, t, hbt⟩ : ∃ b t, chunksOf n (s.drop n) = b :: t :=
        ⟨_, _, chunksOf_cons_eq n (s.drop n) hdrop hn⟩
      rw [hbt] at hne hIH
      rw [chunksOf_cons_eq n s h hn, hbt]
      show (s.take n ++ sep ++ joinDelim sep (b :: t)).getLast? = s.getLast?
      have hne3 : sep ++ joinDelim sep (b :: t) ≠ [] := by
        intro hx
        exact hne (List.append_eq_nil.mp hx).2
      rw [List.append_assoc,
        List.getLast?_append_of_ne_nil _ hne3,
        List.getLast?_append_of_ne_nil _ hne, hIH]
      conv_rhs => rw [← List.take_append_drop n s]
      rw [List.getLast?_append_of_ne_nil _ hdrop]

theorem joinDelim_chunksOf_getLast (sep : List Char) (n : Nat) (hn : n ≠ 0)
    (s : List Char) (h : s ≠ []) :
    (joinDelim sep (chunksOf n s)).getLast? = s.getLast? :=
  joinDelim_chunksOf_getLast_aux sep n hn s.length s le_rfl h

theorem chunkStep_small (command : List Char) (h : ¬ line_size < command.length)
    (h2 : endsWithNL command = true) : chunkStep command = command := by
  unfold chunkStep
  simp [h, h2]

theorem chunkStep_big (command : List Char) (h : line_size < command.length)
    (h2 : endsWithNL (joinDelim delim (chunksOf line_size command)) = true) :
    chunkStep command = joinDelim delim (chunksOf line_size command) := by
  unfold chunkStep
  simp [h, h2]

/-- Claim C1: encoding with the timer disabled yields the stripped code plus
a trailing newline, split into chunks of at most 4090 characters (4095 minus
the delimiter length) joined by the continuation delimiter, and
concatenating the chunks with the delimiters removed reproduces the stripped
code plus the trailing newline. -/
theorem C1_roundtrip_chunking (c rv : List Char) :
    line_size = 4090 ∧
    prepare_command c false rv =
      joinDelim delim (chunksOf line_size (pyStrip c ++ ['\n'])) ∧
    (chunksOf line_size (pyStrip c ++ ['\n'])).flatten = pyStrip c ++ ['\n'] ∧
    ∀ ch ∈ chunksOf line_size (pyStrip c ++ ['\n']), ch.length ≤ line_size := by
  have hlsne : line_size ≠ 0 := by decide
  refine ⟨by decide, ?_, chunksOf_join line_size hlsne _, chunksOf_length_le line_size _⟩
  by_cases hc : pyStrip c = []
  · rw [prepare_command_blank c rv false hc, hc]
    simp only [List.nil_append]
    rw [chunksOf_cons_eq line_size ['\n'] (by simp) hlsne,
      List.take_of_length_le (by decide), List.drop_eq_nil_of_le (by decide),
      chunksOf_nil_eq]
    rfl
  · have hrun : prepare_command c false rv = chunkStep (pyStrip c ++ ['\n']) := by
      simp [prepare_command, hc]
    rw [hrun]
    have hsne : pyStrip c ++ ['\n'] ≠ [] := by simp
    have hlast : (pyStrip c ++ ['\n']).getLast? = some '\n' := by
      rw [List.getLast?_append_of_ne_nil _ (by simp)]
      rfl
    by_cases hlen : line_size < (pyStrip c ++ ['\n']).length
    · refine chunkStep_big _ hlen ?_
      rw [endsWithNL, joinDelim_chunksOf_getLast delim line_size hlsne _ hsne, hlast]
      rfl
    · rw [chunkStep_small _ hlen (by rw [endsWithNL, hlast]; rfl)]
      have hle : (pyStrip c ++ ['\n']).length ≤ line_size := Nat.le_of_not_lt hlen
      rw [chunksOf_cons_eq line_size _ hsne hlsne, List.take_of_length_le hle,
        List.drop_eq_nil_of_le hle, chunksOf_nil_eq]
      rfl

/-- Claim C5: for nonblank code with the timer enabled, the encoder produces,
before chunking, the wire text rand_var=tic; followed by the stripped code,
then ,try,toc(rand_var),catch,end,clear(quoted rand_var); and a newline,
where rand_var is a generated identifier of exactly twelve uppercase ASCII
letters. -/
theorem C5_timer_harness (pick : Nat → Nat) (c : List Char) (h : pyStrip c ≠ []) :
    (gen_rand_var pick).length = 12 ∧
    (∀ ch ∈ gen_rand_var pick, ch ∈ ascii_uppercase) ∧
    prepare_command c true (gen_rand_var pick) =
      chunkStep (gen_rand_var pick ++ "=tic;".data ++ pyStrip c ++
        ",try,toc(".data ++ gen_rand_var pick ++ "),catch,end,clear(".data ++
        [sqCh] ++ gen_rand_var pick ++ [sqCh] ++ ");".data ++ ['\n']) := by
  refine ⟨by simp [gen_rand_var], ?_, ?_⟩
  · intro ch hch
    simp only [gen_rand_var, List.mem_map] at hch
    obtain ⟨i, _, hi⟩ := hch
    rw [← hi]
    have hlt : pick i % ascii_uppercase.length < ascii_uppercase.length :=
      Nat.mod_lt _ (by decide)
    rw [List.getD_eq_getElem _ _ hlt]
    exact List.getElem_mem _
  · simp [prepare_command, h, timerWrap]

/-- Concrete instance of C5_timer_harness on the one-character code x. -/
theorem C5_timer_harness_witness :
    pyStrip ['x'] ≠ [] ∧
      prepare_command ['x'] true (gen_rand_var fun _ => 0) =
        chunkStep ((gen_rand_var fun _ => 0) ++ "=tic;".data ++ pyStrip ['x'] ++
          ",try,toc(".data ++ (gen_rand_var fun _ => 0) ++
          "),catch,end,clear(".data ++ [sqCh] ++ (gen_rand_var fun _ => 0) ++
          [sqCh] ++ ");".data ++ ['\n']) :=
  ⟨by decide, (C5_timer_harness (fun _ => 0) ['x'] (by decide)).2.2⟩

theorem isPrefixOf_append_self (l p : List Char) : l.isPrefixOf (l ++ p) = true := by
  induction l with
  | nil => simp [List.isPrefixOf]
  | cons a as ih => simp [List.isPrefixOf, ih]

/-- Claim C4: when the (quote-stripped) path does not exist on the
filesystem, run_file enqueues nothing and only reports locally, and the
full message dispatch on such a run_file message yields only the local
report. -/
theorem C4_missing_file (fs : List Char → Bool) (rv p : List Char)
    (h : fs (stripQuotes p) = false) :
    run_file fs rv p = .localError ∧
    (∀ cmd, run_file fs rv p ≠ .enq cmd) ∧
    process_message fs rv ("run_file:".data ++ p) = .localError := by
  have h1 : run_file fs rv p = .localError := by simp [run_file, h]
  have h9 : ("run_file:".data).length = 9 := rfl
  have hdrop : ("run_file:".data ++ p).drop 9 = p := by
    rw [← h9, List.drop_left]
  refine ⟨h1, by simp [h1], ?_⟩
  rw [process_message, if_pos (isPrefixOf_append_self _ p), hdrop, h1]

/-- Concrete instance of C4_missing_file on an always-empty filesystem. -/
theorem C4_missing_file_witness :
    (fun _ : List Char => false) (stripQuotes ['a', '.', 'm']) = false ∧
      run_file (fun _ => false) [] ['a', '.', 'm'] = .localError :=
  ⟨rfl, (C4_missing_file (fun _ => false) [] ['a', '.', 'm'] rfl).1⟩

theorem lstrip_append (p : Char → Bool) (l₁ l₂ : List Char) :
    (l₁ ++ l₂).dropWhile p =
      if l₁.dropWhile p = [] then l₂.dropWhile p else l₁.dropWhile p ++ l₂ := by
  induction l₁ with
  | nil => simp
  | cons a as ih =>
    by_cases hp : p a
    · simpa [List.dropWhile_cons, hp] using ih
    · simp [List.dropWhile_cons, hp]

theorem stripQuotes_cons_quote (q : Char) (hq : isQuoteChar q = true)
    (p : List Char) : stripQuotes (q :: p) = stripQuotes p := by
  simp [stripQuotes, lstripBy, List.dropWhile_cons, hq]

theorem rstrip_append_quote (q : Char) (hq : isQuoteChar q = true)
    (s : List Char) : rstripBy isQuoteChar (s ++ [q]) = rstripBy isQuoteChar s := by
  simp [rstripBy, List.reverse_append, List.dropWhile_cons, hq]

theorem stripQuotes_append_quote (q : Char) (hq : isQuoteChar q = true)
    (p : List Char) : stripQuotes (p ++ [q]) = stripQuotes p := by
  unfold stripQuotes lstripBy
  rw [lstrip_append]
  by_cases h : p.dropWhile isQuoteChar = []
  · simp [h, List.dropWhile_cons, hq, rstripBy]
  · rw [if_neg h]
    exact rstrip_append_quote q hq _

/-- Claim C9: run_file strips all leading and trailing quote characters from
the received path, so a quoted path behaves exactly like the unquoted one,
the existence check is made on the unquoted form, and the run command is
built from the unquoted form. -/
theorem C9_quote_stripping (fs : List Char → Bool) (rv p : List Char) :
    run_file fs rv (sqCh :: p ++ [sqCh]) = run_file fs rv p ∧
    run_file fs rv (dqCh :: p ++ [dqCh]) = run_file fs rv p ∧
    (fs (stripQuotes p) = false → run_file fs rv p = .localError) ∧
    (fs (stripQuotes p) = true →
      run_file fs rv p =
        .enq (prepare_command (mkRunCommand (stripQuotes p)) false rv)) := by
  have hq1 : isQuoteChar sqCh = true := by decide
  have hq2 : isQuoteChar dqCh = true := by decide
  have hsq : stripQuotes (sqCh :: (p ++ [sqCh])) = stripQuotes p := by
    rw [stripQuotes_cons_quote sqCh hq1 (p ++ [sqCh]),
      stripQuotes_append_quote sqCh hq1 p]
  have hdq : stripQuotes (dqCh :: (p ++ [dqCh])) = stripQuotes p := by
    rw [stripQuotes_cons_quote dqCh hq2 (p ++ [dqCh]),
      stripQuotes_append_quote dqCh hq2 p]
  refine ⟨by simp [run_file, hsq], by simp [run_file, hdq],
    fun h => by simp [run_file, h],
    fun h => by simp [run_file, run_code_effect, h]⟩

/-- Concrete instance of C9_quote_stripping: a singleton filesystem holding
a.m, probed with the quoted and the bare path. -/
theorem C9_quote_stripping_witness :
    (fun q : List Char => q = ['a', '.', 'm'] : List Char → Bool)
        (stripQuotes ['a', '.', 'm']) = true ∧
      run_file (fun q => q = ['a', '.', 'm']) [] ['a', '.', 'm'] =
        .enq (prepare_command (mkRunCommand (stripQuotes ['a', '.', 'm'])) false []) :=
  ⟨by decide,
    (C9_quote_stripping (fun q => decide (q = ['a', '.', 'm'])) [] ['a', '.', 'm']).2.2.2
      (by decide)⟩

/-- Claim C10: a cell body that is empty or blank makes run_cell return
without enqueueing anything, whereas run_code on the same input still
enqueues a single-newline command. -/
theorem C10_blank_cell (rv c : List Char) (t : Bool)
    (h : ∀ ch ∈ c, pyIsSpace ch = true) :
    run_cell rv c = .noop ∧ run_code_effect c t rv = .enq ['\n'] := by
  have hs : pyStrip c = [] := pyStrip_nil_of_space c h
  exact ⟨by simp [run_cell, hs],
    by simp [run_code_effect, prepare_command_blank c rv t hs]⟩

/-- Concrete instance of C10_blank_cell on a one-space cell body. -/
theorem C10_blank_cell_witness :
    (∀ ch ∈ [' '], pyIsSpace ch = true) ∧
      run_cell [] [' '] = .noop ∧ run_code_effect [' '] true [] = .enq ['\n'] :=
  ⟨by decide, C10_blank_cell [] [' '] true (by decide)⟩

theorem isPrefixOf_imp_take (l s : List Char) (h : l.isPrefixOf s = true) :
    s.take l.length = l := by
  induction l generalizing s with
  | nil => rfl
  | cons a as ih =>
    cases s with
    | nil => simp [List.isPrefixOf] at h
    | cons b bs =>
      simp only [List.isPrefixOf, Bool.and_eq_true, beq_iff_eq] at h
      obtain ⟨hab, h2⟩ := h
      simp [List.take, hab, ih bs h2]

theorem runfile_runcell_disjoint (msg : List Char)
    (h : ("run_cell:".data).isPrefixOf msg = true) :
    ("run_file:".data).isPrefixOf msg = false := by
  cases hp : ("run_file:".data).isPrefixOf msg with
  | false => rfl
  | true =>
    exfalso
    have t1 := isPrefixOf_imp_take _ _ h
    have t2 := isPrefixOf_imp_take _ _ hp
    have h9 : ("run_cell:".data).length = ("run_file:".data).length := by decide
    rw [h9, t2] at t1
    exact absurd t1 (by decide)

/-- Claim C3: every received line is classified into exactly one of five
disjoint cases: the literal kill terminates the process, the literal cancel
interrupts it, a run_file: prefix hands the rest of the line to run_file, a
run_cell: prefix hands the rest to run_cell (both of which run with the
timer disabled), and any other line runs as code with the timer enabled. -/
theorem C3_message_dispatch (fs : List Char → Bool) (rv msg : List Char) :
    (msg = "kill".data → process_message fs rv msg = .killed) ∧
    (msg = "cancel".data → process_message fs rv msg = .interrupted) ∧
    (("run_file:".data).isPrefixOf msg = true →
      process_message fs rv msg = run_file fs rv (msg.drop 9)) ∧
    (("run_cell:".data).isPrefixOf msg = true →
      process_message fs rv msg = run_cell rv (msg.drop 9)) ∧
    (msg ≠ "kill".data → msg ≠ "cancel".data →
      ("run_file:".data).isPrefixOf msg = false →
      ("run_cell:".data).isPrefixOf msg = false →
      process_message fs rv msg = run_code_effect msg true rv) := by
  refine ⟨?_, ?_, ?_, ?_, ?_⟩
  · intro h
    subst h
    have e1 : ("run_file:".data).isPrefixOf ("kill".data) = false := by decide
    have e2 : ("run_cell:".data).isPrefixOf ("kill".data) = false := by decide
    simp [process_message, e1, e2]
  · intro h
    subst h
    have e1 : ("run_file:".data).isPrefixOf ("cancel".data) = false := by decide
    have e2 : ("run_cell:".data).isPrefixOf ("cancel".data) = false := by decide
    have e3 : "cancel".data ≠ "kill".data := by decide
    simp [process_message, e1, e2, e3]
  · intro h
    simp [process_message, h]
  · intro h
    have hnf := runfile_runcell_disjoint msg h
    simp [process_message, hnf, h]
  · intro h1 h2 h3 h4
    simp [process_message, h3, h4, h1, h2]

/-- Concrete instances of C3_message_dispatch, one per branch. -/
theorem C3_message_dispatch_witness :
    process_message (fun _ => true) [] ("kill".data) = .killed ∧
    process_message (fun _ => true) [] ("cancel".data) = .interrupted ∧
    process_message (fun _ => true) [] ("run_file:a".data) =
      run_file (fun _ => true) [] (("run_file:a".data).drop 9) ∧
    process_message (fun _ => true) [] ("run_cell:x".data) =
      run_cell [] (("run_cell:x".data).drop 9) ∧
    process_message (fun _ => true) [] ("disp(3)".data) =
      run_code_effect ("disp(3)".data) true [] :=
  ⟨(C3_message_dispatch (fun _ => true) [] ("kill".data)).1 rfl,
    (C3_message_dispatch (fun _ => true) [] ("cancel".data)).2.1 rfl,
    (C3_message_dispatch (fun _ => true) [] ("run_file:a".data)).2.2.1 (by decide),
    (C3_message_dispatch (fun _ => true) [] ("run_cell:x".data)).2.2.2.1 (by decide),
    (C3_message_dispatch (fun _ => true) [] ("disp(3)".data)).2.2.2.2
      (by decide) (by decide) (by decide) (by decide)⟩

theorem drop_findNL (s : List Char) (h : containsNL s = true) :
    s.drop (findNL s) = suffixFromNL s := by
  induction s with
  | nil => simp [containsNL] at h
  | cons c rest ih =>
    by_cases hc : c = '\n'
    · subst hc
      simp [findNL, List.findIdx_cons, suffixFromNL]
    · have hc2 : (c == '\n') = false := by simp [hc]
      have hr : containsNL rest = true := by
        simpa [containsNL, hc2] using h
      have hfind : findNL (c :: rest) = findNL rest + 1 := by
        simp [findNL, List.findIdx_cons, hc2]
      rw [hfind, List.drop_succ_cons]
      simp only [suffixFromNL, if_neg hc]
      exact ih hr

theorem suffixFromNL_append_pos (h u : List Char) (hc : containsNL h = true) :
    suffixFromNL (h ++ u) = suffixFromNL h ++ u := by
  induction h with
  | nil => simp [containsNL] at hc
  | cons c rest ih =>
    by_cases hcn : c = '\n'
    · subst hcn
      simp [suffixFromNL]
    · have hc2 : (c == '\n') = false := by simp [hcn]
      have hr : containsNL rest = true := by
        simpa [containsNL, hc2] using hc
      simp only [List.cons_append, suffixFromNL, if_neg hcn]
      exact ih hr

theorem suffixFromNL_append_neg (h u : List Char) (hc : containsNL h = false) :
    suffixFromNL (h ++ u) = suffixFromNL u := by
  induction h with
  | nil => simp
  | cons c rest ih =>
    have hc2 : (c == '\n') = false := by
      rcases hb : c == '\n' with _ | _
      · rfl
      · exfalso
        simp [containsNL, hb] at hc
    have hr : containsNL rest = false := by
      simpa [containsNL, hc2] using hc
    have hcn : ¬ c = '\n' := by simpa using hc2
    simp only [List.cons_append, suffixFromNL, if_neg hcn]
    exact ih hr

theorem filterRun_false_eq (l : List (List Char)) : filterRun false l = l.flatten := by
  induction l with
  | nil => rfl
  | cons s rest ih => simp [filterRun, output_filter, ih]

theorem filterRun_true_eq (l : List (List Char)) :
    filterRun true l = suffixFromNL l.flatten := by
  induction l with
  | nil => rfl
  | cons s rest ih =>
    cases hc : containsNL s with
    | true =>
      simp [filterRun, output_filter, hc, filterRun_false_eq, drop_findNL s hc,
        suffixFromNL_append_pos s _ hc]
    | false =>
      simp [filterRun, output_filter, hc, ih, suffixFromNL_append_neg s _ hc]

/-- Claim C6: while the suppression flag is set the filter returns nothing
for chunks without a newline, and on the first chunk with a newline it
clears the flag and returns the suffix starting at that newline; with the
flag clear it is the identity; consequently a whole chunk sequence filtered
from the suppressed state displays exactly the suffix of the concatenated
raw output starting at its first newline. -/
theorem C6_display_filter (s : List Char) (chunks : List (List Char)) :
    (containsNL s = false → output_filter true s = (true, [])) ∧
    (containsNL s = true → output_filter true s = (false, suffixFromNL s)) ∧
    output_filter false s = (false, s) ∧
    filterRun true chunks = suffixFromNL chunks.flatten := by
  refine ⟨fun h => by simp [output_filter, h], fun h => ?_, by simp [output_filter],
    filterRun_true_eq chunks⟩
  simp [output_filter, h, drop_findNL s h]

/-- Concrete instance of C6_display_filter on a chunk holding a newline. -/
theorem C6_display_filter_witness :
    containsNL ['a', '\n', 'b'] = true ∧
      output_filter true ['a', '\n', 'b'] = (false, suffixFromNL ['a', '\n', 'b']) :=
  ⟨by decide, (C6_display_filter ['a', '\n', 'b'] []).2.1 (by decide)⟩

theorem execFrom_stop (fails : Nat → Bool) (k : Nat) (h : ¬ k < 3) :
    execFrom fails k = ([], .dropped) := by
  rw [execFrom]
  simp [h]

theorem execFrom_success (fails : Nat → Bool) (k : Nat) (h : k < 3)
    (hf : fails k = false) :
    execFrom fails k = ([SendEv.attempt, SendEv.sent], .delivered) := by
  rw [execFrom]
  simp [h, hf]

theorem execFrom_fail (fails : Nat → Bool) (k : Nat) (h : k < 3)
    (hf : fails k = true) :
    execFrom fails k =
      (SendEv.attempt ::
        ((if k < 2 then [SendEv.relaunch] else []) ++ (execFrom fails (k + 1)).1),
        (execFrom fails (k + 1)).2) := by
  rw [execFrom]
  simp [h, hf]

/-- Claim C2: the supervisor attempts each command at most three times, a
relaunch separates consecutive attempts, and after three failures the call
returns normally with the command dropped. The four possible traces are
characterized exactly. -/
theorem C2_retry_bound (fails : Nat → Bool) :
    (execute_command fails).1.count SendEv.attempt ≤ 3 ∧
    (fails 0 = false →
      execute_command fails = ([.attempt, .sent], .delivered)) ∧
    (fails 0 = true → fails 1 = false →
      execute_command fails =
        ([.attempt, .relaunch, .attempt, .sent], .delivered)) ∧
    (fails 0 = true → fails 1 = true → fails 2 = false →
      execute_command fails =
        ([.attempt, .relaunch, .attempt, .relaunch, .attempt, .sent],
          .delivered)) ∧
    (fails 0 = true → fails 1 = true → fails 2 = true →
      execute_command fails =
        ([.attempt, .relaunch, .attempt, .relaunch, .attempt], .dropped)) := by
  cases h0 : fails 0 with
  | false =>
    have he : execute_command fails = ([.attempt, .sent], .delivered) :=
      execFrom_success fails 0 (by omega) h0
    refine ⟨by rw [he]; decide, fun _ => he, ?_, ?_, ?_⟩
    all_goals intro hx
    all_goals simp [h0] at hx
  | true =>
    have e0 := execFrom_fail fails 0 (by omega) h0
    cases h1 : fails 1 with
    | false =>
      have e1 := execFrom_success fails (0 + 1) (by omega) h1
      have he : execute_command fails =
          ([.attempt, .relaunch, .attempt, .sent], .delivered) := by
        unfold execute_command
        rw [e0, e1]
        decide
      refine ⟨by rw [he]; decide, ?_, fun _ _ => he, ?_, ?_⟩
      · intro hx
        simp [h0] at hx
      all_goals intro _ hx
      all_goals simp [h1] at hx
    | true =>
      have e1 := execFrom_fail fails (0 + 1) (by omega) h1
      cases h2 : fails 2 with
      | false =>
        have e2 := execFrom_success fails (0 + 1 + 1) (by omega) h2
        have he : execute_command fails =
            ([.attempt, .relaunch, .attempt, .relaunch, .attempt, .sent],
              .delivered) := by
          unfold execute_command
          rw [e0, e1, e2]
          decide
        refine ⟨by rw [he]; decide, ?_, ?_, fun _ _ _ => he, ?_⟩
        · intro hx
          simp [h0] at hx
        · intro _ hx
          simp [h1] at hx
        · intro _ _ hx
          simp [h2] at hx
      | true =>
        have e2 := execFrom_fail fails (0 + 1 + 1) (by omega) h2
        have e3 := execFrom_stop fails (0 + 1 + 1 + 1) (by omega)
        have he : execute_command fails =
            ([.attempt, .relaunch, .attempt, .relaunch, .attempt], .dropped) := by
          unfold execute_command
          rw [e0, e1, e2, e3]
          decide
        refine ⟨by rw [he]; decide, ?_, ?_, ?_, fun _ _ _ => he⟩
        · intro hx
          simp [h0] at hx
        · intro _ hx
          simp [h1] at hx
        · intro _ _ hx
          simp [h2] at hx

/-- Concrete instance of C2_retry_bound on an always-failing child: the
command is dropped after three attempts with two relaunches in between. -/
theorem C2_retry_bound_witness :
    (fun _ : Nat => true) 0 = true ∧
      execute_command (fun _ => true) =
        ([.attempt, .relaunch, .attempt, .relaunch, .attempt], .dropped) :=
  ⟨rfl, (C2_retry_bound (fun _ => true)).2.2.2.2 rfl rfl rfl⟩

theorem killStep_alive_nil (s : SessState) (h : sessInv s) :
    (killStep s).alive = [] := by
  obtain ⟨h1, h2⟩ := h
  cases hc : s.current with
  | none =>
    simp only [killStep, hc]
    cases ha : s.alive with
    | nil => rfl
    | cons a t =>
      have := h2 a (by simp [ha])
      rw [hc] at this
      cases this
  | some p =>
    simp only [killStep, hc]
    rw [List.filter_eq_nil_iff]
    intro q hq
    have := h2 q hq
    rw [hc] at this
    injection this with he
    simp [he]

theorem stepOp_inv (s : SessState) (op : SessOp) (h : sessInv s) :
    sessInv (stepOp s op) := by
  cases op with
  | kill =>
    show sessInv (killStep s)
    constructor
    · rw [killStep_alive_nil s h]
      decide
    · intro p hp
      rw [killStep_alive_nil s h] at hp
      cases hp
  | launch pid =>
    show sessInv (launch_process pid s)
    unfold launch_process spawnStep
    constructor
    · simp [killStep_alive_nil s h]
    · intro p hp
      simp [killStep_alive_nil s h] at hp
      simp [hp]

theorem runOps_inv (ops : List SessOp) :
    ∀ s : SessState, sessInv s → sessInv (runOps s ops) := by
  induction ops with
  | nil => exact fun s h => h
  | cons op rest ih => exact fun s h => ih (stepOp s op) (stepOp_inv s op h)

/-- Claim C7: launch_process always kills the previous process group before
spawning the replacement, and under the lifecycle model every sequence of
launches and kills starting from the initial state leaves at most one child
alive. -/
theorem C7_single_child (ops : List SessOp) (pid : Nat) (s : SessState) :
    launch_process pid s = spawnStep pid (killStep s) ∧
    (runOps initState ops).alive.length ≤ 1 :=
  ⟨rfl, (runOps_inv ops initState ⟨by decide, by intro p hp; cases hp⟩).1⟩
